import Mathlib

/-!
Shallow embedding of the batching/embedding pipeline from
`examples/vector_databases/Using_vector_databases_for_embeddings_search.ipynb`.

The notebook's novel logic consists of:
* `get_embeddings`   - one request to the external embedding service
  (importantly, the `tenacity` retry combinators are imported by the notebook
  but never applied to this function);
* `batchify`         - slice a list into fixed-size chunks
  (`for ndx in range(0, l, n): yield iterable[ndx : min(ndx + n, l)]`);
* `embed_corpus`     - tokenize, truncate, compute and print cost statistics,
  batch, dispatch each batch to a thread pool, gather `future.result()` in
  dispatch order;
* `BatchGenerator`   - `splits_num` (Python `round` of `elements / batch_size`)
  and `to_batches` (`np.array_split` when more than one split is requested).

External collaborators are parameters of the embedding:
`encode : String → List Nat` is the fixed deterministic tokenizer
(`tiktoken` `cl100k_base`; `encoding.encode_batch corpus = corpus.map encode`),
and `emb : List Nat → V` is the embedding service's per-item contract
(the response carries exactly one vector per submitted token sequence, in
request order).  Machine floats appearing in the source (`round` of a float
quotient, the printed cost estimate) are modelled by exact rationals; for the
integer magnitudes arising here the float computation is exact in the relevant
digits, as noted at each definition.
-/

/-- Python `round` applied to the nonnegative quotient `num / den` (`den ≥ 1`):
round half to even (banker's rounding), as Python's builtin `round` does.  The
source computes `round(elements / batch_size)` with float division; a tie
`k + 1/2` is always exactly representable in binary floating point, and for the
magnitudes in this notebook the float quotient never crosses a rounding
boundary, so the exact rational model agrees with the float computation. -/
def pyRound (num den : Nat) : Nat :=
  if 2 * (num % den) < den then num / den
  else if den < 2 * (num % den) then num / den + 1
  else if (num / den) % 2 = 0 then num / den else num / den + 1

/-- Notebook `batchify(iterable, n)`:
`l = len(iterable); for ndx in range(0, l, n): yield iterable[ndx : min(ndx + n, l)]`.
`range(0, l, n)` has `⌈l / n⌉ = (l + n - 1) / n` elements `0, n, 2n, …`, and the
slice `iterable[ndx : min(ndx + n, l)]` is `(iterable.drop ndx).take n`.
(For `n = 0` Python's `range` raises `ValueError`; every claim assumes `n ≥ 1`.) -/
def batchify (iterable : List α) (n : Nat) : List (List α) :=
  (List.range' 0 ((iterable.length + n - 1) / n) n).map
    (fun ndx => (iterable.drop ndx).take n)

/-- Split `l` into consecutive chunks of the given sizes (helper used to state
the semantics of `np.array_split`). -/
def takeChunks (l : List α) : List Nat → List (List α)
  | [] => []
  | s :: ss => l.take s :: takeChunks (l.drop s) ss

/-- `np.array_split(l, n)` for `n ≥ 1`: exactly `n` contiguous chunks; the first
`l.length % n` chunks have size `l.length / n + 1` and the remaining chunks have
size `l.length / n` (NumPy places the larger chunks first). -/
def array_split (l : List α) (n : Nat) : List (List α) :=
  takeChunks l (List.replicate (l.length % n) (l.length / n + 1) ++
    List.replicate (n - l.length % n) (l.length / n))

/-- `BatchGenerator.splits_num(elements)`: `round(elements / self.batch_size)`. -/
def splits_num (batch_size elements : Nat) : Nat :=
  pyRound elements batch_size

/-- `BatchGenerator.to_batches(df)`: compute `splits = self.splits_num(df.shape[0])`;
if `splits <= 1` yield the whole table as a single chunk, otherwise yield the
chunks of `np.array_split(df, splits)`. -/
def to_batches (batch_size : Nat) (df : List α) : List (List α) :=
  if splits_num batch_size df.length ≤ 1 then [df]
  else array_split df (splits_num batch_size df.length)

/-- Truncation `encoded_article[:max_context_len]` applied to each tokenized
article inside `embed_corpus`. -/
def truncate_tokens (max_context_len : Nat) (encoded_article : List Nat) : List Nat :=
  encoded_article.take max_context_len

/-- `encoded_corpus` inside `embed_corpus`:
`[encoded_article[:max_context_len] for encoded_article in encoding.encode_batch(corpus)]`. -/
def encode_corpus (encode : String → List Nat) (max_context_len : Nat)
    (corpus : List String) : List (List Nat) :=
  (corpus.map encode).map (truncate_tokens max_context_len)

/-- `get_embeddings(input)`: a single `openai.Embedding.create` call; by the
Embedding Service contract the response carries one vector per input item, in
request order, so the request is the per-item service map applied to the batch. -/
def get_embeddings (emb : List Nat → V) (input : List (List Nat)) : List V :=
  input.map emb

/-- `embed_corpus`: encode and truncate the corpus, batch it with
`batchify(encoded_corpus, batch_size)`, dispatch each batch (`get_embeddings`),
and gather by extending `embeddings` with `future.result()` for the futures in
dispatch order. -/
def embed_corpus (emb : List Nat → V) (encode : String → List Nat)
    (corpus : List String) (batch_size max_context_len : Nat) : List V :=
  ((batchify (encode_corpus encode max_context_len corpus) batch_size).map
    (get_embeddings emb)).flatten

/-- Results of the dispatched futures as they complete: `order` lists the batch
(dispatch) indices in completion order, and each completed future carries the
embeddings of its own batch, keyed by its dispatch index. -/
def completed_results (emb : List Nat → V) (futures : List (List (List Nat)))
    (order : List Nat) : List (Nat × List V) :=
  order.map (fun i => (i, get_embeddings emb (futures.getD i [])))

/-- `embed_corpus` with the completion order made explicit: the progress loop
(`concurrent.futures.as_completed`) consumes completions in `order`, but the
gather loop reads `futures[j].result()` for `j` in dispatch order, i.e. it looks
each batch's result up by the batch's dispatch index.  `num_workers` is the
thread-pool size: it bounds concurrency only and does not enter the computed
value. -/
def embed_corpus_run (emb : List Nat → V) (encode : String → List Nat)
    (corpus : List String) (batch_size num_workers max_context_len : Nat)
    (order : List Nat) : List V :=
  let futures := batchify (encode_corpus encode max_context_len corpus) batch_size
  let completed := completed_results emb futures order
  ((List.range futures.length).map (fun j => (completed.lookup j).getD [])).flatten

/-- `embed_corpus` with fallible batch requests: `svc` is the per-batch request
(the body of `get_embeddings`), which may fail with an error.  The gather loop
`for future in futures: embeddings.extend(future.result())` re-raises the first
failure, so the whole run aborts with that error and returns no list. -/
def embed_corpusE (svc : List (List Nat) → Except ε (List V))
    (encode : String → List Nat) (corpus : List String)
    (batch_size max_context_len : Nat) : Except ε (List V) :=
  match (batchify (encode_corpus encode max_context_len corpus) batch_size).mapM svc with
  | Except.error e => Except.error e
  | Except.ok results => Except.ok results.flatten

/-- Observable steps of one `embed_corpus` run: the printed statistics line
(`num_articles`, `num_tokens`, `est_embedding_cost`) and the submission of each
batch to the executor. -/
inductive PipeEvent
  | report (num_articles num_tokens : Nat) (est_cost : ℚ)
  | dispatch (text_batch : List (List Nat))

/-- `embed_corpus` with its side effects in program order: first the statistics
line is printed (`num_tokens = sum of truncated lengths`,
`est_embedding_cost = num_tokens / 1_000 * 0.0004`, an exact rational here);
only then are the batches submitted to the executor, and the gathered
embeddings are returned. -/
def embed_corpus_events (emb : List Nat → V) (encode : String → List Nat)
    (corpus : List String) (batch_size max_context_len : Nat) :
    List PipeEvent × List V :=
  let encoded_corpus := encode_corpus encode max_context_len corpus
  let num_tokens := (encoded_corpus.map List.length).sum
  (PipeEvent.report encoded_corpus.length num_tokens
      ((num_tokens : ℚ) / 1000 * (4 / 10000)) ::
    (batchify encoded_corpus batch_size).map PipeEvent.dispatch,
  embed_corpus emb encode corpus batch_size max_context_len)

/-- `get_embeddings` as written performs exactly one request: `attempts n` is
the outcome the external service would give the n-th (0-based) attempt of the
same request, and the body issues attempt 0 and surfaces its outcome directly —
no retry decorator is applied (`retry`, `wait_random_exponential` and
`stop_after_attempt` are imported from `tenacity` at the top of the notebook
but never used). -/
def get_embeddings_attempts (attempts : Nat → Except ε (List V)) :
    Except ε (List V) :=
  attempts 0

/-! ### Basic facts about `batchify` -/

theorem batchify_nil (n : Nat) : batchify ([] : List α) n = [] := by
  have h : (n - 1) / n = 0 := by
    rcases Nat.eq_zero_or_pos n with h0 | h0
    · simp [h0]
    · exact Nat.div_eq_of_lt (by omega)
  simp [batchify, h]

theorem batchify_length (l : List α) (n : Nat) :
    (batchify l n).length = (l.length + n - 1) / n := by
  simp [batchify]

theorem batchify_eq_nil_iff (l : List α) (n : Nat) (hn : 1 ≤ n) :
    batchify l n = [] ↔ l = [] := by
  constructor
  · intro h
    have hlen := congrArg List.length h
    rw [batchify_length] at hlen
    simp only [List.length_nil] at hlen
    have : l.length + n - 1 < n := (Nat.div_eq_zero_iff (by omega)).mp hlen
    exact List.length_eq_zero.mp (by omega)
  · intro h; subst h; exact batchify_nil n

theorem map_range'_add (f : Nat → β) (step : Nat) :
    ∀ (c s : Nat), (List.range' (s + step) c step).map f
      = (List.range' s c step).map (fun x => f (x + step)) := by
  intro c
  induction c with
  | zero => intro s; simp
  | succ c ih =>
      intro s
      rw [List.range'_succ, List.range'_succ]
      simp only [List.map_cons]
      congr 1
      exact ih (s + step)

theorem batchify_cons (l : List α) (n : Nat) (hl : l ≠ []) (hn : 1 ≤ n) :
    batchify l n = l.take n :: batchify (l.drop n) n := by
  have hlen : 1 ≤ l.length := by
    cases l with
    | nil => exact absurd rfl hl
    | cons a t => simp
  have hcount : (l.length + n - 1) / n = (l.length - 1) / n + 1 := by
    have h1 : l.length + n - 1 = (l.length - 1) + n := by omega
    rw [h1, Nat.add_div_right _ (by omega)]
  have hcount2 : ((l.drop n).length + n - 1) / n = (l.length - 1) / n := by
    rw [List.length_drop]
    rcases le_or_lt n l.length with h | h
    · congr 1; omega
    · have h2 : l.length - n = 0 := by omega
      rw [h2]
      have h3 : (0 + n - 1) / n = 0 := Nat.div_eq_of_lt (by omega)
      have h4 : (l.length - 1) / n = 0 := Nat.div_eq_of_lt (by omega)
      rw [h3, h4]
  rw [batchify, batchify, hcount, hcount2, List.range'_succ]
  simp only [List.map_cons, List.drop_zero]
  congr 1
  have hshift := map_range'_add (fun ndx => (l.drop ndx).take n) n ((l.length - 1) / n) 0
  rw [hshift]
  apply List.map_congr_left
  intro x hx
  rw [List.drop_drop, Nat.add_comm x n]

theorem batchify_flatten (n : Nat) (hn : 1 ≤ n) :
    ∀ (k : Nat) (l : List α), l.length ≤ k → (batchify l n).flatten = l := by
  intro k
  induction k with
  | zero =>
      intro l hl
      have : l = [] := List.length_eq_zero.mp (by omega)
      subst this
      rw [batchify_nil]
      rfl
  | succ k ih =>
      intro l hl
      by_cases h0 : l = []
      · subst h0; rw [batchify_nil]; rfl
      · rw [batchify_cons l n h0 hn]
        rw [List.flatten_cons]
        rw [ih (l.drop n) (by rw [List.length_drop]; omega)]
        exact List.take_append_drop n l

theorem batchify_mem (n : Nat) (hn : 1 ≤ n) :
    ∀ (k : Nat) (l : List α), l.length ≤ k →
      ∀ c ∈ batchify l n, 1 ≤ c.length ∧ c.length ≤ n := by
  intro k
  induction k with
  | zero =>
      intro l hl c hc
      have : l = [] := List.length_eq_zero.mp (by omega)
      subst this
      rw [batchify_nil] at hc
      exact absurd hc (List.not_mem_nil c)
  | succ k ih =>
      intro l hl c hc
      by_cases h0 : l = []
      · subst h0; rw [batchify_nil] at hc; exact absurd hc (List.not_mem_nil c)
      · rw [batchify_cons l n h0 hn] at hc
        rcases List.mem_cons.mp hc with h | h
        · subst h
          have h1 : 1 ≤ l.length := by
            cases l with
            | nil => exact absurd rfl h0
            | cons a t => simp
          rw [List.length_take]
          omega
        · exact ih (l.drop n) (by rw [List.length_drop]; omega) c h

theorem batchify_getD (n : Nat) (hn : 1 ≤ n) :
    ∀ (k : Nat) (l : List α) (i : Nat), l.length ≤ k →
      i + 1 < (batchify l n).length → ((batchify l n).getD i []).length = n := by
  intro k
  induction k with
  | zero =>
      intro l i hl hi
      have : l = [] := List.length_eq_zero.mp (by omega)
      subst this
      rw [batchify_nil] at hi
      simp at hi
  | succ k ih =>
      intro l i hl hi
      by_cases h0 : l = []
      · subst h0; rw [batchify_nil] at hi; simp at hi
      · rw [batchify_cons l n h0 hn] at hi ⊢
        cases i with
        | zero =>
            rw [List.getD_cons_zero, List.length_take]
            simp only [List.length_cons] at hi
            have htail : batchify (l.drop n) n ≠ [] := by
              intro h
              rw [h] at hi
              simp at hi
            have hdrop : l.drop n ≠ [] :=
              fun h => htail (by rw [h]; exact batchify_nil n)
            have : n < l.length := by
              by_contra h
              exact hdrop (List.drop_eq_nil_of_le (by omega))
            omega
        | succ i =>
            rw [List.getD_cons_succ]
            exact ih (l.drop n) i (by rw [List.length_drop]; omega)
              (by simpa using hi)

/-! ### Facts about `takeChunks`, `array_split`, `pyRound` and `to_batches` -/

theorem takeChunks_flatten :
    ∀ (sizes : List Nat) (l : List α), l.length ≤ sizes.sum →
      (takeChunks l sizes).flatten = l := by
  intro sizes
  induction sizes with
  | nil =>
      intro l hl
      have : l = [] := List.length_eq_zero.mp (by simpa using hl)
      subst this
      rfl
  | cons s ss ih =>
      intro l hl
      rw [takeChunks, List.flatten_cons]
      rw [ih (l.drop s) (by rw [List.length_drop]; simp [List.sum_cons] at hl; omega)]
      exact List.take_append_drop s l

theorem takeChunks_map_length :
    ∀ (sizes : List Nat) (l : List α), sizes.sum ≤ l.length →
      (takeChunks l sizes).map List.length = sizes := by
  intro sizes
  induction sizes with
  | nil => intro l _; rfl
  | cons s ss ih =>
      intro l hl
      simp only [List.sum_cons] at hl
      rw [takeChunks, List.map_cons]
      congr 1
      · rw [List.length_take]; omega
      · exact ih (l.drop s) (by rw [List.length_drop]; omega)

theorem array_split_sizes_sum (N n : Nat) (hn : 1 ≤ n) :
    (List.replicate (N % n) (N / n + 1) ++ List.replicate (n - N % n) (N / n)).sum
      = N := by
  rw [List.sum_append]
  have hs : ∀ (k a : Nat), (List.replicate k a).sum = k * a := by
    intro k a
    induction k with
    | zero => simp
    | succ k ihk => rw [List.replicate_succ, List.sum_cons, ihk]; ring
  rw [hs, hs]
  have hmod : N % n < n := Nat.mod_lt _ (by omega)
  have hdm : n * (N / n) + N % n = N := Nat.div_add_mod N n
  have h1 : N % n * (N / n + 1) = N % n * (N / n) + N % n := by ring
  have h2 : (n - N % n) * (N / n) = n * (N / n) - N % n * (N / n) :=
    Nat.sub_mul n (N % n) (N / n)
  have h3 : N % n * (N / n) ≤ n * (N / n) :=
    Nat.mul_le_mul_right _ (by omega)
  omega

theorem array_split_map_length (l : List α) (n : Nat) (hn : 1 ≤ n) :
    (array_split l n).map List.length
      = List.replicate (l.length % n) (l.length / n + 1) ++
          List.replicate (n - l.length % n) (l.length / n) := by
  rw [array_split]
  exact takeChunks_map_length _ l (by rw [array_split_sizes_sum l.length n hn])

theorem array_split_flatten (l : List α) (n : Nat) (hn : 1 ≤ n) :
    (array_split l n).flatten = l := by
  rw [array_split]
  exact takeChunks_flatten _ l (by rw [array_split_sizes_sum l.length n hn])

theorem array_split_length (l : List α) (n : Nat) (hn : 1 ≤ n) :
    (array_split l n).length = n := by
  have h := congrArg List.length (array_split_map_length l n hn)
  simp only [List.length_map, List.length_append, List.length_replicate] at h
  have hmod : l.length % n < n := Nat.mod_lt _ (by omega)
  omega

theorem array_split_chunk_ne_nil (l : List α) (n : Nat) (hn : 1 ≤ n)
    (hnl : n ≤ l.length) : ∀ c ∈ array_split l n, c ≠ [] := by
  intro c hc
  have hq : 1 ≤ l.length / n := (Nat.one_le_div_iff (by omega)).mpr hnl
  have hmem : c.length ∈ (array_split l n).map List.length :=
    List.mem_map_of_mem List.length hc
  rw [array_split_map_length l n hn] at hmem
  rcases List.mem_append.mp hmem with h | h
  · have := List.eq_of_mem_replicate h
    intro hnil
    rw [hnil] at this
    simp at this
  · have := List.eq_of_mem_replicate h
    intro hnil
    rw [hnil] at this
    simp at this
    omega

theorem pyRound_le (num den : Nat) (h : 1 ≤ den) : pyRound num den ≤ num := by
  have hq : num / den ≤ num := Nat.div_le_self num den
  have hdm : den * (num / den) + num % den = num := Nat.div_add_mod num den
  have hqle : num / den ≤ den * (num / den) := Nat.le_mul_of_pos_left _ (by omega)
  rw [pyRound]
  split
  · exact hq
  · split
    · omega
    · split
      · exact hq
      · omega

theorem splits_num_le (batch_size N : Nat) (h : 1 ≤ batch_size) :
    splits_num batch_size N ≤ N :=
  pyRound_le N batch_size h

theorem to_batches_flatten (df : List α) (batch_size : Nat) (hbs : 1 ≤ batch_size) :
    (to_batches batch_size df).flatten = df := by
  rw [to_batches]
  split
  · simp
  · rename_i hgt
    exact array_split_flatten df _ (by omega)

theorem to_batches_chunk_ne_nil (df : List α) (batch_size : Nat)
    (hbs : 1 ≤ batch_size) (hne : df ≠ []) :
    ∀ c ∈ to_batches batch_size df, c ≠ [] := by
  intro c hc
  rw [to_batches] at hc
  revert hc
  split
  · intro hc
    have : c = df := by simpa using hc
    rw [this]; exact hne
  · rename_i hgt
    intro hc
    have hle : splits_num batch_size df.length ≤ df.length :=
      splits_num_le batch_size df.length hbs
    exact array_split_chunk_ne_nil df _ (by omega) hle c hc

/-! ### Helper facts for the gather step of `embed_corpus` -/

theorem lookup_map_pair (f : Nat → β) :
    ∀ (order : List Nat) (j : Nat), j ∈ order →
      (order.map (fun i => (i, f i))).lookup j = some (f j) := by
  intro order
  induction order with
  | nil => intro j hj; exact absurd hj (List.not_mem_nil j)
  | cons a t ih =>
      intro j hj
      rw [List.map_cons, List.lookup_cons]
      by_cases hja : j = a
      · subst hja; simp
      · have hbeq : (j == a) = false := beq_false_of_ne hja
        rw [hbeq]
        exact ih j (by rcases List.mem_cons.mp hj with h | h; exact absurd h hja; exact h)

theorem map_range_getD (l : List β) (d : β) :
    (List.range l.length).map (fun i => l.getD i d) = l := by
  induction l with
  | nil => simp
  | cons a t ih =>
      rw [List.length_cons, List.range_succ_eq_map]
      simp only [List.map_cons, List.getD_cons_zero, List.map_map, Function.comp_def,
        List.getD_cons_succ]
      rw [ih]

theorem embed_corpus_eq_map {V : Type} (emb : List Nat → V)
    (encode : String → List Nat) (corpus : List String)
    (batch_size max_context_len : Nat) (hbs : 1 ≤ batch_size) :
    embed_corpus emb encode corpus batch_size max_context_len
      = corpus.map (fun s => emb (truncate_tokens max_context_len (encode s))) := by
  rw [embed_corpus]
  have h1 : (batchify (encode_corpus encode max_context_len corpus) batch_size).map
      (get_embeddings emb)
      = (batchify (encode_corpus encode max_context_len corpus) batch_size).map
        (List.map emb) := rfl
  rw [h1, ← List.map_flatten]
  rw [batchify_flatten batch_size hbs
    (encode_corpus encode max_context_len corpus).length _ le_rfl]
  rw [encode_corpus, List.map_map, List.map_map]
  rfl

theorem mapM_error_of_mem {ε V : Type} (svc : List (List Nat) → Except ε (List V)) :
    ∀ (l : List (List (List Nat))) (b : List (List Nat)), b ∈ l →
      (∃ e, svc b = Except.error e) → ∃ e, l.mapM svc = Except.error e := by
  intro l
  induction l with
  | nil => intro b hb; exact absurd hb (List.not_mem_nil b)
  | cons x t ih =>
      intro b hb hbe
      rcases hx : svc x with e | v
      · exact ⟨e, by rw [List.mapM_cons, hx]; rfl⟩
      · rcases List.mem_cons.mp hb with h | h
        · rcases hbe with ⟨e, he⟩
          rw [h, hx] at he
          exact absurd he (by simp)
        · rcases ih b h hbe with ⟨e, he⟩
          exact ⟨e, by rw [List.mapM_cons, hx, he]; rfl⟩

theorem to_batches_length_of_ge_two (df : List α) (batch_size : Nat)
    (h2 : 2 ≤ splits_num batch_size df.length) :
    (to_batches batch_size df).length = splits_num batch_size df.length := by
  rw [to_batches, if_neg (by omega)]
  exact array_split_length df _ (by omega)

/-! ### Claim theorems -/

/-- C4: for every ordered table of N ≥ 0 elements and every chunk size ≥ 1, the
chunks produced by the Batch Splitter (`BatchGenerator.to_batches`, and likewise
the `batchify` helper) concatenate, in order, back to the original N elements
exactly — no element lost, none duplicated, relative order preserved — and no
chunk is empty unless N = 0. -/
theorem splitter_concat_exact (df : List α) (batch_size : Nat)
    (hbs : 1 ≤ batch_size) :
    (to_batches batch_size df).flatten = df
      ∧ (df ≠ [] → ∀ c ∈ to_batches batch_size df, c ≠ [])
      ∧ (batchify df batch_size).flatten = df
      ∧ (∀ c ∈ batchify df batch_size, c ≠ []) := by
  refine ⟨to_batches_flatten df batch_size hbs,
    fun hne => to_batches_chunk_ne_nil df batch_size hbs hne,
    batchify_flatten batch_size hbs df.length df le_rfl, ?_⟩
  intro c hc
  have h := batchify_mem batch_size hbs df.length df le_rfl c hc
  intro hnil
  rw [hnil] at h
  simp at h

/-- C4 witness: the Batch Splitter on the concrete table `[0, …, 6]` with chunk
size 3 reconstructs the table and yields no empty chunk. -/
theorem splitter_concat_exact_witness :
    (to_batches 3 (List.range 7)).flatten = List.range 7
      ∧ (List.range 7 ≠ [] → ∀ c ∈ to_batches 3 (List.range 7), c ≠ [])
      ∧ (batchify (List.range 7) 3).flatten = List.range 7
      ∧ (∀ c ∈ batchify (List.range 7) 3, c ≠ []) :=
  splitter_concat_exact (List.range 7) 3 (by decide)

/-- C9: for every input list of N ≥ 1 elements and every chunk size n ≥ 1,
`batchify` yields exactly `⌈N / n⌉ = (N + n - 1) / n` chunks; every chunk except
possibly the last has exactly n elements (so chunk boundaries sit at multiples
of n), and every chunk — in particular the last — has between 1 and n
elements. -/
theorem batchify_chunk_sizes (l : List α) (n : Nat) (hn : 1 ≤ n)
    (hl : 1 ≤ l.length) :
    (batchify l n).length = (l.length + n - 1) / n
      ∧ (∀ i, i + 1 < (batchify l n).length → ((batchify l n).getD i []).length = n)
      ∧ (∀ c ∈ batchify l n, 1 ≤ c.length ∧ c.length ≤ n) :=
  ⟨batchify_length l n,
    fun i hi => batchify_getD n hn l.length l i le_rfl hi,
    fun c hc => batchify_mem n hn l.length l le_rfl c hc⟩

/-- C9 witness: `batchify` on the 10-element list `[0, …, 9]` with chunk size 3
yields `⌈10/3⌉ = 4` chunks, all full except the last, all of size 1 to 3. -/
theorem batchify_chunk_sizes_witness :
    (batchify (List.range 10) 3).length = (10 + 3 - 1) / 3
      ∧ (∀ i, i + 1 < (batchify (List.range 10) 3).length →
          ((batchify (List.range 10) 3).getD i []).length = 3)
      ∧ (∀ c ∈ batchify (List.range 10) 3, 1 ≤ c.length ∧ c.length ≤ 3) := by
  have h := batchify_chunk_sizes (List.range 10) 3 (by decide) (by simp)
  simpa using h

/-- C10: on a table with zero rows the computed split count rounds to 0, so
`BatchGenerator.to_batches` yields exactly one chunk, and that chunk is empty:
the splitter never yields zero chunks, even for an empty input. -/
theorem to_batches_empty_table (batch_size : Nat) (hbs : 1 ≤ batch_size) :
    to_batches batch_size ([] : List α) = [[]] := by
  have h : splits_num batch_size ([] : List α).length ≤ 1 := by
    simp only [List.length_nil]
    have := splits_num_le batch_size 0 hbs
    omega
  rw [to_batches, if_pos h]

/-- C10 witness: the notebook's configuration (batch size 300) on an empty
table yields the single empty chunk. -/
theorem to_batches_empty_table_witness :
    to_batches 300 ([] : List Nat) = [[]] :=
  to_batches_empty_table 300 (by decide)

/-- C7 counterexample: the empty table is small relative to batch size 300 and
its computed chunk count rounds to 0, yet `to_batches` yields an empty chunk
there — refuting, at this input, the claim that no empty chunk is ever yielded
in the small-table regime. -/
theorem to_batches_small_table_cex :
    splits_num 300 (List.length ([] : List Nat)) = 0
      ∧ to_batches 300 ([] : List Nat) = [[]]
      ∧ [] ∈ to_batches 300 ([] : List Nat) := by
  decide

/-- C7 (amended): for every nonempty table whose computed chunk count rounds to
0 or 1 (e.g. 10 elements with batch size 300), the Batch Splitter does not
crash: it yields the whole table as one chunk — every element yielded, no
element lost, and no empty chunk.  (For the empty table the splitter instead
yields a single empty chunk, see the counterexample.) -/
theorem to_batches_small_table (df : List α) (batch_size : Nat)
    (hbs : 1 ≤ batch_size) (hne : df ≠ [])
    (hsp : splits_num batch_size df.length ≤ 1) :
    to_batches batch_size df = [df]
      ∧ (∀ c ∈ to_batches batch_size df, c ≠ [])
      ∧ (to_batches batch_size df).flatten = df := by
  have h1 : to_batches batch_size df = [df] := by rw [to_batches, if_pos hsp]
  refine ⟨h1, ?_, ?_⟩
  · intro c hc
    rw [h1] at hc
    have hc2 : c = df := by simpa using hc
    rw [hc2]
    exact hne
  · rw [h1]
    simp

/-- C7 witness: 10 elements with batch size 300 (`round(10/300) = 0`): the
splitter yields the whole 10-element table as one nonempty chunk. -/
theorem to_batches_small_table_witness :
    to_batches 300 (List.range 10) = [List.range 10]
      ∧ (∀ c ∈ to_batches 300 (List.range 10), c ≠ [])
      ∧ (to_batches 300 (List.range 10)).flatten = List.range 10 :=
  to_batches_small_table (List.range 10) 300 (by decide) (by decide) (by decide)

/-- C3 counterexample: on a 25000-row table with batch size 300 the splitter
yields `round(25000/300) = 83` chunks, not 84 as claimed. -/
theorem to_batches_25000_not_84 :
    (to_batches 300 (List.range 25000)).length = 83
      ∧ (to_batches 300 (List.range 25000)).length ≠ 84 := by
  have hsp : splits_num 300 (List.range 25000).length = 83 := by
    rw [List.length_range]
    decide
  have hlen : (to_batches 300 (List.range 25000)).length = 83 := by
    rw [to_batches_length_of_ge_two (List.range 25000) 300 (by omega)]
    exact hsp
  exact ⟨hlen, by omega⟩

/-- C3 (amended): batch size 300 on a 25000-row table yields exactly 83 chunks
(`round(25000/300) = 83`); `np.array_split` makes the sizes as equal as
possible with the larger chunks first — the first 17 chunks have 302 rows and
the remaining 66 have 301 (so the remainder is absorbed by the leading chunks,
not the last one) — and none of the chunks is empty. -/
theorem to_batches_25000_chunks (l : List α) (hl : l.length = 25000) :
    (to_batches 300 l).map List.length
        = List.replicate 17 302 ++ List.replicate 66 301
      ∧ (to_batches 300 l).length = 83
      ∧ ∀ c ∈ to_batches 300 l, c ≠ [] := by
  have hsp : splits_num 300 l.length = 83 := by rw [hl]; decide
  have hmod : l.length % 83 = 17 := by rw [hl]
  have hdiv : l.length / 83 = 301 := by rw [hl]
  have hmap : (to_batches 300 l).map List.length
      = List.replicate 17 302 ++ List.replicate 66 301 := by
    rw [to_batches, if_neg (by omega), hsp]
    rw [array_split_map_length l 83 (by omega), hmod, hdiv]
  refine ⟨hmap, ?_, ?_⟩
  · have h := congrArg List.length hmap
    simpa using h
  · intro c hc
    have hmem : c.length ∈ (to_batches 300 l).map List.length :=
      List.mem_map_of_mem List.length hc
    rw [hmap] at hmem
    intro hnil
    rw [hnil] at hmem
    rcases List.mem_append.mp hmem with h | h
    · have := List.eq_of_mem_replicate h
      simp at this
    · have := List.eq_of_mem_replicate h
      simp at this

/-- C3 witness: the amended statement evaluated on the concrete 25000-element
table `[0, …, 24999]`. -/
theorem to_batches_25000_chunks_witness :
    (to_batches 300 (List.range 25000)).map List.length
        = List.replicate 17 302 ++ List.replicate 66 301
      ∧ (to_batches 300 (List.range 25000)).length = 83
      ∧ ∀ c ∈ to_batches 300 (List.range 25000), c ≠ [] :=
  to_batches_25000_chunks (List.range 25000) (by simp)

theorem gather_eq_flatten {V : Type} (emb : List Nat → V)
    (futures : List (List (List Nat))) (order : List Nat)
    (hord : ∀ j ∈ List.range futures.length, j ∈ order) :
    ((List.range futures.length).map
        (fun j => ((completed_results emb futures order).lookup j).getD [])).flatten
      = (futures.map (get_embeddings emb)).flatten := by
  apply congrArg List.flatten
  calc (List.range futures.length).map
        (fun j => ((completed_results emb futures order).lookup j).getD [])
      = (List.range futures.length).map
          (fun j => get_embeddings emb (futures.getD j [])) := by
        apply List.map_congr_left
        intro j hj
        rw [completed_results,
          lookup_map_pair (fun i => get_embeddings emb (futures.getD i []))
            order j (hord j hj)]
        rfl
    _ = ((List.range futures.length).map (fun j => futures.getD j [])).map
          (get_embeddings emb) := by rw [List.map_map]; rfl
    _ = futures.map (get_embeddings emb) := by rw [map_range_getD]

/-- C1: for every input corpus, every batch size ≥ 1, every worker count ≥ 1
and every maximum token length, `embed_corpus` returns a list of the same
length as the corpus whose i-th entry is the embedding the service returns for
the i-th input string (its tokenization truncated to the maximum length) —
regardless of the order `order` in which the dispatched batch requests
complete, because the gather loop reads the futures in dispatch order. -/
theorem embed_corpus_preserves_order {V : Type} (emb : List Nat → V)
    (encode : String → List Nat) (corpus : List String)
    (batch_size num_workers max_context_len : Nat) (order : List Nat)
    (hbs : 1 ≤ batch_size) (hw : 1 ≤ num_workers)
    (hord : order.Perm (List.range
      (batchify (encode_corpus encode max_context_len corpus) batch_size).length)) :
    embed_corpus_run emb encode corpus batch_size num_workers max_context_len order
        = corpus.map (fun s => emb (truncate_tokens max_context_len (encode s)))
      ∧ (embed_corpus_run emb encode corpus batch_size num_workers max_context_len
          order).length = corpus.length := by
  have hmem : ∀ j ∈ List.range
      (batchify (encode_corpus encode max_context_len corpus) batch_size).length,
      j ∈ order := fun j hj => hord.mem_iff.mpr hj
  have hmain : embed_corpus_run emb encode corpus batch_size num_workers
      max_context_len order
      = corpus.map (fun s => emb (truncate_tokens max_context_len (encode s))) := by
    show ((List.range
        (batchify (encode_corpus encode max_context_len corpus) batch_size).length).map
          (fun j => ((completed_results emb
              (batchify (encode_corpus encode max_context_len corpus) batch_size)
              order).lookup j).getD [])).flatten
      = corpus.map (fun s => emb (truncate_tokens max_context_len (encode s)))
    rw [gather_eq_flatten emb _ order hmem]
    rw [← embed_corpus]
    exact embed_corpus_eq_map emb encode corpus batch_size max_context_len hbs
  exact ⟨hmain, by rw [hmain, List.length_map]⟩

/-- C1 witness: a two-string corpus with batch size 1, 2 workers and the
reversed completion order `[1, 0]` (the second batch completes first) still
yields the outputs in input order. -/
theorem embed_corpus_preserves_order_witness :
    embed_corpus_run (fun t => t) (fun _ => [7, 8, 9]) ["a", "b"] 1 2 2 [1, 0]
        = (["a", "b"] : List String).map
            (fun s => (fun t => t) (truncate_tokens 2 ((fun _ => [7, 8, 9]) s)))
      ∧ (embed_corpus_run (fun t => t) (fun _ => [7, 8, 9]) ["a", "b"] 1 2 2
          [1, 0]).length = (["a", "b"] : List String).length :=
  embed_corpus_preserves_order (fun t => t) (fun _ => [7, 8, 9]) ["a", "b"] 1 2 2
    [1, 0] (by decide) (by decide) (by decide)

/-- C2: the claim says a transiently failing request is retried with
randomized exponential backoff; the code as written performs exactly one
attempt.  With a service whose first attempt fails with a rate-limit error and
whose second attempt would succeed, `get_embeddings` surfaces the first
failure without any retry — the `tenacity` combinators are imported but never
applied. -/
theorem get_embeddings_no_retry :
    (fun n => if n = 0
        then (Except.error "rate limited" : Except String (List (List Nat)))
        else Except.ok [[1]]) 1 = Except.ok [[1]]
      ∧ get_embeddings_attempts
          (fun n => if n = 0
            then (Except.error "rate limited" : Except String (List (List Nat)))
            else Except.ok [[1]])
        = Except.error "rate limited" :=
  ⟨rfl, rfl⟩

/-- C5: for every text and every maximum token length L, the truncation step of
the Tokenizer/Chunker returns a token sequence of length at most L, and returns
the full untruncated tokenization whenever that tokenization has length at
most L (tokens beyond the limit are silently dropped, no error). -/
theorem truncate_tokens_spec (encode : String → List Nat) (text : String)
    (L : Nat) :
    (truncate_tokens L (encode text)).length ≤ L
      ∧ ((encode text).length ≤ L →
          truncate_tokens L (encode text) = encode text) := by
  constructor
  · rw [truncate_tokens, List.length_take]
    omega
  · intro h
    rw [truncate_tokens]
    exact List.take_of_length_le h

/-- C5 witness: a three-token text under limit 5 is returned untruncated and
within the bound. -/
theorem truncate_tokens_spec_witness :
    (truncate_tokens 5 ((fun _ => [1, 2, 3]) "x")).length ≤ 5
      ∧ truncate_tokens 5 ((fun _ => [1, 2, 3]) "x") = (fun _ => [1, 2, 3]) "x" :=
  ⟨(truncate_tokens_spec (fun _ => [1, 2, 3]) "x" 5).1,
    (truncate_tokens_spec (fun _ => [1, 2, 3]) "x" 5).2 (by decide)⟩

/-- C6: if any single batch request fails permanently, the `embed_corpus` run
surfaces that error to the caller and returns no vector list at all — there is
no partial result containing the vectors of the batches that did succeed. -/
theorem embed_corpus_error_no_partial {ε V : Type}
    (svc : List (List Nat) → Except ε (List V)) (encode : String → List Nat)
    (corpus : List String) (batch_size max_context_len : Nat)
    (h : ∃ b ∈ batchify (encode_corpus encode max_context_len corpus) batch_size,
        ∃ e, svc b = Except.error e) :
    ∃ e, embed_corpusE svc encode corpus batch_size max_context_len
        = Except.error e := by
  rcases h with ⟨b, hb, he⟩
  rcases mapM_error_of_mem svc
      (batchify (encode_corpus encode max_context_len corpus) batch_size)
      b hb he with ⟨e, hme⟩
  exact ⟨e, by rw [embed_corpusE, hme]⟩

/-- C6 witness: with a service that fails every batch with error 7, a two-item
corpus at batch size 1 yields an error and no vector list. -/
theorem embed_corpus_error_no_partial_witness :
    ∃ e, embed_corpusE (fun _ => (Except.error 7 : Except Nat (List (List Nat))))
        (fun _ => [0]) ["a", "b"] 1 8191 = Except.error e :=
  embed_corpus_error_no_partial (fun _ => (Except.error 7 : Except Nat (List (List Nat))))
    (fun _ => [0]) ["a", "b"] 1 8191
    ⟨[[0]], by decide, 7, rfl⟩

/-- C8: `embed_corpus` computes the aggregate token count over the whole
corpus and the derived cost estimate, and reports them as the first observable
event — strictly before any batch is dispatched; the estimate is advisory
only: whatever its value, every batch is still dispatched and the full vector
list is returned, so the estimate never prevents or aborts the run. -/
theorem embed_corpus_reports_before_dispatch {V : Type} (emb : List Nat → V)
    (encode : String → List Nat) (corpus : List String)
    (batch_size max_context_len : Nat) (hbs : 1 ≤ batch_size) :
    (embed_corpus_events emb encode corpus batch_size max_context_len).1
        = PipeEvent.report corpus.length
            ((encode_corpus encode max_context_len corpus).map List.length).sum
            ((((encode_corpus encode max_context_len corpus).map List.length).sum : ℚ)
              / 1000 * (4 / 10000))
          :: (batchify (encode_corpus encode max_context_len corpus) batch_size).map
              PipeEvent.dispatch
      ∧ (embed_corpus_events emb encode corpus batch_size max_context_len).2
          = corpus.map (fun s => emb (truncate_tokens max_context_len (encode s))) := by
  constructor
  · show PipeEvent.report (encode_corpus encode max_context_len corpus).length
        ((encode_corpus encode max_context_len corpus).map List.length).sum
        ((((encode_corpus encode max_context_len corpus).map List.length).sum : ℚ)
          / 1000 * (4 / 10000))
      :: (batchify (encode_corpus encode max_context_len corpus) batch_size).map
          PipeEvent.dispatch
      = _
    have hl : (encode_corpus encode max_context_len corpus).length = corpus.length := by
      rw [encode_corpus]
      simp
    rw [hl]
  · exact embed_corpus_eq_map emb encode corpus batch_size max_context_len hbs

/-- C8 witness: for a concrete two-string corpus with batch size 1 the report
event (with the aggregate token count and the derived cost) comes first,
followed only by dispatch events, and the full output is returned. -/
theorem embed_corpus_reports_before_dispatch_witness :
    (embed_corpus_events (fun t => t) (fun _ => [7, 8, 9]) ["a", "b"] 1 2).1
        = PipeEvent.report (["a", "b"] : List String).length
            ((encode_corpus (fun _ => [7, 8, 9]) 2 ["a", "b"]).map List.length).sum
            ((((encode_corpus (fun _ => [7, 8, 9]) 2 ["a", "b"]).map
                List.length).sum : ℚ) / 1000 * (4 / 10000))
          :: (batchify (encode_corpus (fun _ => [7, 8, 9]) 2 ["a", "b"]) 1).map
              PipeEvent.dispatch
      ∧ (embed_corpus_events (fun t => t) (fun _ => [7, 8, 9]) ["a", "b"] 1 2).2
          = (["a", "b"] : List String).map
              (fun s => (fun t => t) (truncate_tokens 2 ((fun _ => [7, 8, 9]) s))) :=
  embed_corpus_reports_before_dispatch (fun t => t) (fun _ => [7, 8, 9])
    ["a", "b"] 1 2 (by decide)
